import Mathlib

/-!
Shallow embedding of the terrier transaction manager
(src/src/transaction/transaction_manager.cpp) and proofs of the
specified properties.

The manager state is modelled as a record holding the atomic timestamp
counter, the store of undo records (addressed by natural-number handles,
mirroring stable record addresses), transaction contexts (also addressed
by handles), the running-transactions table, the completed queue, the GC
flag, the tuple storage (table, slot, column to value) and the per-slot
version-chain head pointers.
-/

namespace Terrier

/-- The smallest signed 64-bit integer, INT64_MIN. -/
def INT64_MIN : Int := -(2 ^ 63)

/-- An undo record: mutable timestamp word, the table and slot it undoes,
the before-image projection (column id, value pairs) and the next pointer
of the version chain (a record handle or null). -/
structure UndoRecord where
  timestamp : Int
  table : Nat
  slot : Nat
  delta : List (Nat × Int)
  next : Option Nat
  deriving DecidableEq, Inhabited

/-- A transaction context: start time, transient or committed id, and the
undo buffer as the list of record handles in installation order. -/
structure TransactionContext where
  start_time : Int
  txn_id : Int
  undo_buffer : List Nat
  deriving DecidableEq, Inhabited

/-- The whole manager state together with the storage it manipulates. -/
structure State where
  time : Int
  records : List UndoRecord
  ctxs : List TransactionContext
  curr_running_txns : List (Int × Nat)
  completed_txns : List Nat
  gc_enabled : Bool
  tuples : Nat → Nat → Nat → Int
  heads : Nat → Nat → Option Nat

/-- Insertion into the running table with std::map emplace semantics: a
present key leaves the map unchanged. -/
def emplace (m : List (Int × Nat)) (k : Int) (v : Nat) : List (Int × Nat) :=
  if m.any (fun p => p.1 = k) then m else m ++ [(k, v)]

/-- One comparison step of the minimum-key scan of the running table. -/
def minStep (acc : Option (Int × Nat)) (p : Int × Nat) : Option (Int × Nat) :=
  match acc with
  | none => some p
  | some q => if p.1 < q.1 then some p else some q

/-- The entry of the running table with the minimum key, as std::map
begin() returns it, or none when the table is empty. -/
def minEntry (m : List (Int × Nat)) : Option (Int × Nat) :=
  m.foldl minStep none

/-- TransactionManager::BeginTransaction: draw a fresh timestamp id,
allocate a context with start time id and transient id + INT64_MIN, and
emplace it into the running table. Returns the new context handle. -/
def BeginTransaction (s : State) : Nat × State :=
  let id := s.time
  let s0 := { s with time := s.time + 1 }
  let result : TransactionContext :=
    { start_time := id, txn_id := id + INT64_MIN, undo_buffer := [] }
  let h := s0.ctxs.length
  (h, { s0 with
          ctxs := s0.ctxs ++ [result],
          curr_running_txns := emplace s0.curr_running_txns id h })

/-- Flip the timestamp word of every record of the undo buffer to the
commit time, as the stamping loop in Commit does. -/
def stampAll (rs : List UndoRecord) (buf : List Nat) (c : Int) : List UndoRecord :=
  buf.foldl (fun rs h => rs.set h { rs.getD h default with timestamp := c }) rs

/-- TransactionManager::Commit: draw the commit time, stamp every undo
record of the transaction with it, erase the transaction from the running
table, store the commit time into its txn id, and queue it for GC when GC
is enabled. Returns the commit time. -/
def Commit (s : State) (txn : Nat) : Int × State :=
  let commit_time := s.time
  let s0 := { s with time := s.time + 1 }
  let t := s0.ctxs.getD txn default
  let s1 := { s0 with records := stampAll s0.records t.undo_buffer commit_time }
  let s2 := { s1 with
                curr_running_txns := s1.curr_running_txns.filter (fun p => p.1 ≠ t.start_time),
                ctxs := s1.ctxs.set txn { t with txn_id := commit_time } }
  let s3 := if s2.gc_enabled then { s2 with completed_txns := s2.completed_txns ++ [txn] } else s2
  (commit_time, s3)

/-- Effect of the per-column loop of Rollback copying the delta projection
into the tuple slot, one column at a time via CopyAttrFromProjection. -/
def applyDelta (tuples : Nat → Nat → Nat → Int) (t sl : Nat) (delta : List (Nat × Int)) :
    Nat → Nat → Nat → Int :=
  delta.foldl (fun f p => fun a b c => if a = t ∧ b = sl ∧ c = p.1 then p.2 else f a b c) tuples

/-- Atomic store of the version-chain head of one tuple slot. -/
def updHead (heads : Nat → Nat → Option Nat) (t sl : Nat) (v : Option Nat) :
    Nat → Nat → Option Nat :=
  fun a b => if a = t ∧ b = sl then v else heads a b

/-- TransactionManager::Rollback: read the version-chain head of the
slot of the record; if it is null or its timestamp word is not the
transient id of the aborting transaction, return without touching
anything; otherwise copy the delta of the head record column-by-column
back into the tuple slot and store the next pointer of the head record
as the new head. -/
def Rollback (s : State) (txn_id : Int) (record : UndoRecord) : State :=
  let table := record.table
  let slot := record.slot
  match s.heads table slot with
  | none => s
  | some version_ptr =>
    let v := s.records.getD version_ptr default
    if v.timestamp ≠ txn_id then s
    else
      { s with
          tuples := applyDelta s.tuples table slot v.delta,
          heads := updHead s.heads table slot v.next }

/-- TransactionManager::Abort: walk the undo buffer in order invoking
Rollback on each record, erase the transaction from the running table,
and queue it for GC when GC is enabled. -/
def Abort (s : State) (txn : Nat) : State :=
  let t := s.ctxs.getD txn default
  let txn_id := t.txn_id
  let s1 := t.undo_buffer.foldl (fun st h => Rollback st txn_id (st.records.getD h default)) s
  let s2 := { s1 with curr_running_txns := s1.curr_running_txns.filter (fun p => p.1 ≠ t.start_time) }
  if s2.gc_enabled then { s2 with completed_txns := s2.completed_txns ++ [txn] } else s2

/-- TransactionManager::OldestTransactionStartTime: the start time of the
context of the minimum-key entry of the running table, or the current
value of the timestamp source when the table is empty. -/
def OldestTransactionStartTime (s : State) : Int :=
  match minEntry s.curr_running_txns with
  | some q => (s.ctxs.getD q.2 default).start_time
  | none => s.time

/-- TransactionManager::CompletedTransactionsForGC: move the completed
queue out, leaving an empty queue behind, and return the moved queue. -/
def CompletedTransactionsForGC (s : State) : List Nat × State :=
  (s.completed_txns, { s with completed_txns := [] })

/-- Modelled from the spec: the external tuple-write path (the DataTable
update protocol, whose sources are not part of this repository slice).
Per the spec, a write by a live transaction captures the prior values of
the written columns into a fresh undo record whose timestamp word is the
transient id of the writer and whose next pointer is the previous chain
head, installs that record as the new head, appends it to the undo buffer
of the writer, and then applies the new values to the tuple slot. -/
def TransactionWrite (s : State) (txn : Nat) (t sl : Nat) (writes : List (Nat × Int)) : State :=
  let ctx := s.ctxs.getD txn default
  let pre := writes.map (fun p => (p.1, s.tuples t sl p.1))
  let r : UndoRecord :=
    { timestamp := ctx.txn_id, table := t, slot := sl, delta := pre, next := s.heads t sl }
  let h := s.records.length
  { s with
      records := s.records ++ [r],
      ctxs := s.ctxs.set txn { ctx with undo_buffer := ctx.undo_buffer ++ [h] },
      heads := updHead s.heads t sl (some h),
      tuples := applyDelta s.tuples t sl writes }

/-- Perform a sequence of writes, each naming the table, slot and the
written column-value pairs, on behalf of one transaction. -/
def writeAll (s : State) (txn : Nat) (ws : List (Nat × Nat × List (Nat × Int))) : State :=
  ws.foldl (fun st w => TransactionWrite st txn w.1 w.2.1 w.2.2) s

/-- Modelled from the spec: a freshly constructed transaction manager.
The constructor and header of TransactionManager are not among the
sources; the spec (section 8, scenario 3) fixes the first issued start
time as 1, so the timestamp source starts at 1. The running table, the
completed queue and the record store start empty, no version chains
exist, and the tuple storage holds a given initial image. -/
def freshManager (gc : Bool) (tuples0 : Nat → Nat → Nat → Int) : State :=
  { time := 1, records := [], ctxs := [], curr_running_txns := [],
    completed_txns := [], gc_enabled := gc, tuples := tuples0,
    heads := fun _ _ => none }

/-- One public operation of the manager, for reasoning about arbitrary
operation sequences. -/
inductive Op where
  | beginTxn : Op
  | commitTxn (h : Nat) : Op
  | abortTxn (h : Nat) : Op
  | takeCompleted : Op
  | oldestQuery : Op
  deriving DecidableEq

/-- State transition of one operation. -/
def stepOp (s : State) : Op → State
  | Op.beginTxn => (BeginTransaction s).2
  | Op.commitTxn h => (Commit s h).2
  | Op.abortTxn h => Abort s h
  | Op.takeCompleted => (CompletedTransactionsForGC s).2
  | Op.oldestQuery => s

/-- The timestamps one operation draws from the timestamp source. -/
def draws (s : State) : Op → List Int
  | Op.beginTxn => [s.time]
  | Op.commitTxn _ => [s.time]
  | _ => []

/-- Run a sequence of operations. -/
def run (s : State) (ops : List Op) : State :=
  ops.foldl stepOp s

/-- All timestamps drawn along a run, in drawing order. -/
def drawnList (s : State) : List Op → List Int
  | [] => []
  | o :: ops => draws s o ++ drawnList (stepOp s o) ops

/-- The context handle an operation pushes onto the completed queue when
GC is enabled. -/
def completedOf : Op → Option Nat
  | Op.commitTxn h => some h
  | Op.abortTxn h => some h
  | _ => none

/-- The handles a sequence of operations pushes onto the completed queue,
in completion order. -/
def gcCompletions (gc : Bool) (ops : List Op) : List Nat :=
  if gc then ops.filterMap completedOf else []

/-- Effect of a delta application on a single column function. -/
def applyPairs (g : Nat → Int) (ps : List (Nat × Int)) : Nat → Int :=
  ps.foldl (fun g p => fun c => if c = p.1 then p.2 else g c) g

/-- Every version-chain head points at a record of the store. -/
def HeadsValid (s : State) : Prop :=
  ∀ t sl vp, s.heads t sl = some vp → vp < s.records.length

/-- Every next pointer of a stored record points at a record of the store. -/
def NextsValid (s : State) : Prop :=
  ∀ r ∈ s.records, ∀ h, r.next = some h → h < s.records.length

/-- Well-formedness of the pointer structure of a state. -/
def Valid (s : State) : Prop := HeadsValid s ∧ NextsValid s

/-- Every handle of the undo buffer of a transaction points at a record of
the store. -/
def BufValid (s : State) (txn : Nat) : Prop :=
  ∀ h ∈ (s.ctxs.getD txn default).undo_buffer, h < s.records.length

/-- Abbreviation for the record-level rollback step of the abort walk. -/
def rb (tid : Int) (st : State) (r : UndoRecord) : State := Rollback st tid r

/-- The undo record a tuple write installs: transient writer id, the
before-image of the written columns, next pointing at the previous head. -/
def installedRecord (s : State) (txn : Nat) (t sl : Nat) (writes : List (Nat × Int)) : UndoRecord :=
  { timestamp := (s.ctxs.getD txn default).txn_id, table := t, slot := sl,
    delta := writes.map (fun p => (p.1, s.tuples t sl p.1)), next := s.heads t sl }

/-- Folding the rollback step over the records of the undo buffer of a
transaction in reverse order; by commutation of rollback steps this has
the same effect on tuples and heads as the forward walk of Abort. -/
def abortFold (s : State) (txn : Nat) (tid : Int) : State :=
  (((s.ctxs.getD txn default).undo_buffer.map
      (fun h => s.records.getD h default)).reverse).foldl (rb tid) s

/-- A concrete test state: one live transaction (handle 0, start time 1,
transient id, empty undo buffer) registered in the running table, GC
enabled, every tuple column holding 10, and no version chains. -/
def fixtureState : State :=
  { time := 2, records := [],
    ctxs := [{ start_time := 1, txn_id := 1 + INT64_MIN, undo_buffer := [] }],
    curr_running_txns := [(1, 0)], completed_txns := [], gc_enabled := true,
    tuples := fun _ _ _ => 10, heads := fun _ _ => none }

/-- Two writes of the fixture transaction to table 0 slot 0, setting
column 0 first to 99 and then to 77. -/
def fixtureWrites : List (Nat × Nat × List (Nat × Int)) :=
  [(0, 0, [(0, 99)]), (0, 0, [(0, 77)])]

/-- The older of two undo records of one transaction on table 0 slot 0:
before-image column 0 = 10, null next pointer. -/
def chainRecFirst : UndoRecord :=
  { timestamp := -5, table := 0, slot := 0, delta := [(0, 10)], next := none }

/-- The newer of two undo records of one transaction on table 0 slot 0:
before-image column 0 = 99, next pointing at the older record. -/
def chainRecSecond : UndoRecord :=
  { timestamp := -5, table := 0, slot := 0, delta := [(0, 99)], next := some 0 }

/-- A concrete test state where the transaction with transient id -5
wrote table 0 slot 0 twice, so the version chain holds the newer record
(handle 1) in front of the older one (handle 0) and the tuple column 0
holds the second written value 77. -/
def chainState : State :=
  { time := 5, records := [chainRecFirst, chainRecSecond],
    ctxs := [{ start_time := 1, txn_id := -5, undo_buffer := [0, 1] }],
    curr_running_txns := [(1, 0)], completed_txns := [], gc_enabled := false,
    tuples := fun _ _ _ => 77,
    heads := fun a b => if a = 0 ∧ b = 0 then some 1 else none }

/-- Scenario state: a fresh manager with GC disabled and every tuple
column holding 0. -/
def scn0 : State := freshManager false (fun _ _ _ => 0)

/-- Scenario state after the first BeginTransaction. -/
def scn1 : State := (BeginTransaction scn0).2

/-- Scenario state after the second BeginTransaction. -/
def scn2 : State := (BeginTransaction scn1).2

/-- Scenario state after committing the first transaction. -/
def scn3 : State := (Commit scn2 0).2

/-- Scenario state after committing the second transaction. -/
def scn4 : State := (Commit scn3 1).2

theorem getD_append_lt {α : Type} [Inhabited α] (l m : List α) (i : Nat) (h : i < l.length) :
    (l ++ m).getD i default = l.getD i default := by
  simp [List.getD, List.getElem?_append, h]

theorem getD_append_self {α : Type} [Inhabited α] (l : List α) (a : α) :
    (l ++ [a]).getD l.length default = a := by
  simp [List.getD]

theorem getD_set_self {α : Type} [Inhabited α] (l : List α) (i : Nat) (a : α) (h : i < l.length) :
    (l.set i a).getD i default = a := by
  simp [List.getD, List.getElem?_set_self, h]

theorem getD_set_ne {α : Type} [Inhabited α] (l : List α) (i j : Nat) (a : α) (h : i ≠ j) :
    (l.set i a).getD j default = l.getD j default := by
  simp [List.getD, List.getElem?_set, h]

theorem getD_mem {α : Type} [Inhabited α] (l : List α) (i : Nat) (h : i < l.length) :
    l.getD i default ∈ l := by
  simp [List.getD, List.getElem?_eq_getElem h]

theorem applyDelta_cons (f : Nat → Nat → Nat → Int) (t sl : Nat) (p : Nat × Int)
    (ps : List (Nat × Int)) :
    applyDelta f t sl (p :: ps)
      = applyDelta (fun a b c => if a = t ∧ b = sl ∧ c = p.1 then p.2 else f a b c) t sl ps := rfl

theorem applyPairs_cons (g : Nat → Int) (p : Nat × Int) (ps : List (Nat × Int)) :
    applyPairs g (p :: ps) = applyPairs (fun c => if c = p.1 then p.2 else g c) ps := rfl

theorem applyDelta_other (f : Nat → Nat → Nat → Int) (t sl : Nat) (ps : List (Nat × Int))
    (a b c : Nat) (h : ¬(a = t ∧ b = sl)) : applyDelta f t sl ps a b c = f a b c := by
  induction ps generalizing f with
  | nil => rfl
  | cons p ps ih =>
    rw [applyDelta_cons, ih]
    exact if_neg (fun hc => h ⟨hc.1, hc.2.1⟩)

theorem applyPairs_congr (g g' : Nat → Int) (ps : List (Nat × Int)) (hg : ∀ c, g c = g' c) :
    ∀ c, applyPairs g ps c = applyPairs g' ps c := by
  induction ps generalizing g g' with
  | nil => exact hg
  | cons p ps ih =>
    intro c
    rw [applyPairs_cons, applyPairs_cons]
    refine ih _ _ (fun d => ?_) c
    by_cases hd : d = p.1 <;> simp [hd, hg d]

theorem applyDelta_at (f : Nat → Nat → Nat → Int) (t sl : Nat) (ps : List (Nat × Int)) (c : Nat) :
    applyDelta f t sl ps t sl c = applyPairs (f t sl) ps c := by
  induction ps generalizing f c with
  | nil => rfl
  | cons p ps ih =>
    rw [applyDelta_cons, applyPairs_cons, ih]
    refine applyPairs_congr _ _ ps (fun d => ?_) c
    simp

theorem applyPairs_not_mem (g : Nat → Int) (ps : List (Nat × Int)) (c : Nat)
    (h : c ∉ ps.map Prod.fst) : applyPairs g ps c = g c := by
  induction ps generalizing g with
  | nil => rfl
  | cons p ps ih =>
    rw [applyPairs_cons]
    have hc : c ≠ p.1 := by
      intro he; exact h (by simp [he])
    rw [ih _ (by intro hm; exact h (by simp [hm]))]
    simp [hc]

theorem applyPairs_restore (ps : List (Nat × Int)) (g f : Nat → Int)
    (h : ∀ c, c ∉ ps.map Prod.fst → g c = f c) :
    ∀ c, applyPairs g (ps.map fun p => (p.1, f p.1)) c = f c := by
  induction ps generalizing g with
  | nil =>
    intro c
    exact h c (by simp)
  | cons p ps ih =>
    intro c
    rw [List.map_cons, applyPairs_cons]
    refine ih _ (fun d hd => ?_) c
    by_cases hdp : d = p.1
    · simp [hdp]
    · simp only [if_neg hdp]
      exact h d (by simp [hdp, hd])

theorem applyDelta_restore (f : Nat → Nat → Nat → Int) (t sl : Nat) (ws : List (Nat × Int)) :
    applyDelta (applyDelta f t sl ws) t sl (ws.map fun p => (p.1, f t sl p.1)) = f := by
  funext a b c
  by_cases hab : a = t ∧ b = sl
  · obtain ⟨ha, hb⟩ := hab
    subst ha; subst hb
    rw [applyDelta_at]
    exact applyPairs_restore ws (fun d => applyDelta f a b ws a b d) (fun d => f a b d)
      (fun d hd => by
        show applyDelta f a b ws a b d = f a b d
        rw [applyDelta_at]
        exact applyPairs_not_mem _ _ _ hd) c
  · rw [applyDelta_other _ _ _ _ _ _ _ hab, applyDelta_other _ _ _ _ _ _ _ hab]

theorem updHead_restore (f : Nat → Nat → Option Nat) (t sl : Nat) (v : Option Nat) :
    updHead (updHead f t sl v) t sl (f t sl) = f := by
  funext a b
  by_cases hab : a = t ∧ b = sl
  · obtain ⟨ha, hb⟩ := hab
    subst ha; subst hb
    simp [updHead]
  · simp [updHead, hab]

theorem updHead_other (f : Nat → Nat → Option Nat) (t sl : Nat) (v : Option Nat) (a b : Nat)
    (h : ¬(a = t ∧ b = sl)) : updHead f t sl v a b = f a b := by
  simp [updHead, h]

theorem updHead_at (f : Nat → Nat → Option Nat) (t sl : Nat) (v : Option Nat) :
    updHead f t sl v t sl = v := by
  simp [updHead]

theorem updHead_comm (f : Nat → Nat → Option Nat) (t sl t' sl' : Nat) (v v' : Option Nat)
    (h : ¬(t = t' ∧ sl = sl')) :
    updHead (updHead f t sl v) t' sl' v' = updHead (updHead f t' sl' v') t sl v := by
  funext a b
  by_cases h1 : a = t ∧ b = sl
  · obtain ⟨ha, hb⟩ := h1
    subst ha; subst hb
    rw [updHead_other _ _ _ _ _ _ h, updHead_at, updHead_at]
  · by_cases h2 : a = t' ∧ b = sl'
    · obtain ⟨ha, hb⟩ := h2
      subst ha; subst hb
      rw [updHead_at, updHead_other _ _ _ _ _ _ h1, updHead_at]
    · rw [updHead_other _ _ _ _ _ _ h2, updHead_other _ _ _ _ _ _ h1,
          updHead_other _ _ _ _ _ _ h1, updHead_other _ _ _ _ _ _ h2]

theorem applyDelta_comm (f : Nat → Nat → Nat → Int) (t sl t' sl' : Nat)
    (ps ps' : List (Nat × Int)) (h : ¬(t = t' ∧ sl = sl')) :
    applyDelta (applyDelta f t sl ps) t' sl' ps'
      = applyDelta (applyDelta f t' sl' ps') t sl ps := by
  funext a b c
  by_cases h1 : a = t ∧ b = sl
  · have h2 : ¬(a = t' ∧ b = sl') := by
      intro hc
      exact h ⟨h1.1.symm.trans hc.1, h1.2.symm.trans hc.2⟩
    rw [applyDelta_other _ _ _ _ _ _ _ h2]
    obtain ⟨ha, hb⟩ := h1
    subst ha; subst hb
    rw [applyDelta_at, applyDelta_at]
    exact applyPairs_congr _ _ ps
      (fun d => (applyDelta_other f t' sl' ps' a b d h2).symm) c
  · rw [applyDelta_other _ _ _ _ _ _ _ h1]
    by_cases h2 : a = t' ∧ b = sl'
    · obtain ⟨ha, hb⟩ := h2
      subst ha; subst hb
      rw [applyDelta_at, applyDelta_at]
      exact applyPairs_congr _ _ ps' (fun d => applyDelta_other f t sl ps a b d h1) c
    · rw [applyDelta_other _ _ _ _ _ _ _ h2, applyDelta_other _ _ _ _ _ _ _ h2,
          applyDelta_other _ _ _ _ _ _ _ h1]

theorem Rollback_none (s : State) (tid : Int) (r : UndoRecord)
    (h : s.heads r.table r.slot = none) : Rollback s tid r = s := by
  simp [Rollback, h]

theorem Rollback_stale (s : State) (tid : Int) (r : UndoRecord) (vp : Nat)
    (h : s.heads r.table r.slot = some vp)
    (hts : (s.records.getD vp default).timestamp ≠ tid) : Rollback s tid r = s := by
  rw [List.getD_eq_getElem?_getD] at hts
  simp [Rollback, h, hts]

theorem Rollback_owned (s : State) (tid : Int) (r : UndoRecord) (vp : Nat)
    (h : s.heads r.table r.slot = some vp)
    (hts : (s.records.getD vp default).timestamp = tid) :
    Rollback s tid r =
      { s with
          tuples := applyDelta s.tuples r.table r.slot (s.records.getD vp default).delta,
          heads := updHead s.heads r.table r.slot (s.records.getD vp default).next } := by
  rw [List.getD_eq_getElem?_getD] at hts
  simp [Rollback, h, hts, List.getD_eq_getElem?_getD]

theorem Rollback_frame (s : State) (tid : Int) (r : UndoRecord) :
    (Rollback s tid r).records = s.records ∧ (Rollback s tid r).ctxs = s.ctxs ∧
    (Rollback s tid r).time = s.time ∧
    (Rollback s tid r).curr_running_txns = s.curr_running_txns ∧
    (Rollback s tid r).completed_txns = s.completed_txns ∧
    (Rollback s tid r).gc_enabled = s.gc_enabled := by
  cases h : s.heads r.table r.slot with
  | none =>
    rw [Rollback_none s tid r h]
    exact ⟨rfl, rfl, rfl, rfl, rfl, rfl⟩
  | some vp =>
    by_cases hts : (s.records.getD vp default).timestamp = tid
    · rw [Rollback_owned s tid r vp h hts]
      exact ⟨rfl, rfl, rfl, rfl, rfl, rfl⟩
    · rw [Rollback_stale s tid r vp h hts]
      exact ⟨rfl, rfl, rfl, rfl, rfl, rfl⟩

theorem Rollback_congr (s : State) (tid : Int) (r r' : UndoRecord)
    (h1 : r.table = r'.table) (h2 : r.slot = r'.slot) :
    Rollback s tid r = Rollback s tid r' := by
  unfold Rollback
  rw [h1, h2]

theorem Rollback_heads_other (s : State) (tid : Int) (r : UndoRecord) (a b : Nat)
    (h : ¬(a = r.table ∧ b = r.slot)) : (Rollback s tid r).heads a b = s.heads a b := by
  cases hh : s.heads r.table r.slot with
  | none => rw [Rollback_none s tid r hh]
  | some vp =>
    by_cases hts : (s.records.getD vp default).timestamp = tid
    · rw [Rollback_owned s tid r vp hh hts]
      exact updHead_other _ _ _ _ _ _ h
    · rw [Rollback_stale s tid r vp hh hts]

theorem Rollback_comm (s : State) (tid : Int) (r r' : UndoRecord) :
    Rollback (Rollback s tid r) tid r' = Rollback (Rollback s tid r') tid r := by
  by_cases hsame : r.table = r'.table ∧ r.slot = r'.slot
  · rw [← Rollback_congr (Rollback s tid r) tid r r' hsame.1 hsame.2,
        ← Rollback_congr s tid r r' hsame.1 hsame.2]
  · have hsame' : ¬(r'.table = r.table ∧ r'.slot = r.slot) :=
      fun hc => hsame ⟨hc.1.symm, hc.2.symm⟩
    have hBkeep : (Rollback s tid r).heads r'.table r'.slot = s.heads r'.table r'.slot :=
      Rollback_heads_other s tid r _ _ hsame'
    have hAkeep : (Rollback s tid r').heads r.table r.slot = s.heads r.table r.slot :=
      Rollback_heads_other s tid r' _ _ hsame
    have hArec : (Rollback s tid r).records = s.records := (Rollback_frame s tid r).1
    have hBrec : (Rollback s tid r').records = s.records := (Rollback_frame s tid r').1
    cases hA : s.heads r.table r.slot with
    | none =>
      rw [Rollback_none s tid r hA, Rollback_none _ tid r (hAkeep.trans hA)]
    | some vp =>
      by_cases hts : (s.records.getD vp default).timestamp = tid
      · cases hB : s.heads r'.table r'.slot with
        | none =>
          rw [Rollback_none _ tid r' (hBkeep.trans hB), Rollback_none s tid r' hB]
        | some vq =>
          by_cases hts' : (s.records.getD vq default).timestamp = tid
          · have hBX : (Rollback s tid r).heads r'.table r'.slot = some vq := hBkeep.trans hB
            have htsX : ((Rollback s tid r).records.getD vq default).timestamp = tid := by
              rw [hArec]; exact hts'
            have hAY : (Rollback s tid r').heads r.table r.slot = some vp := hAkeep.trans hA
            have htsY : ((Rollback s tid r').records.getD vp default).timestamp = tid := by
              rw [hBrec]; exact hts
            rw [Rollback_owned _ tid r' vq hBX htsX, Rollback_owned _ tid r vp hAY htsY,
                Rollback_owned s tid r vp hA hts, Rollback_owned s tid r' vq hB hts']
            simp only [hArec, hBrec]
            congr 1
            · exact applyDelta_comm _ _ _ _ _ _ _ hsame
            · exact updHead_comm _ _ _ _ _ _ _ hsame
          · rw [Rollback_stale _ tid r' vq (hBkeep.trans hB) (by rw [hArec]; exact hts'),
                Rollback_stale s tid r' vq hB hts']
      · rw [Rollback_stale s tid r vp hA hts,
            Rollback_stale _ tid r vp (hAkeep.trans hA) (by rw [hBrec]; exact hts)]

theorem foldl_comm_push {α β : Type} (f : β → α → β)
    (hc : ∀ b x y, f (f b x) y = f (f b y) x) :
    ∀ (l : List α) (b : β) (a : α), l.foldl f (f b a) = f (l.foldl f b) a := by
  intro l
  induction l with
  | nil => intro b a; rfl
  | cons x l ih =>
    intro b a
    rw [List.foldl_cons, List.foldl_cons, hc, ih]

theorem foldl_comm_reverse {α β : Type} (f : β → α → β)
    (hc : ∀ b x y, f (f b x) y = f (f b y) x) :
    ∀ (l : List α) (b : β), l.foldl f b = l.reverse.foldl f b := by
  intro l
  induction l with
  | nil => intro b; rfl
  | cons a l ih =>
    intro b
    rw [List.foldl_cons, List.reverse_cons, List.foldl_append, ← ih, List.foldl_cons,
        List.foldl_nil, foldl_comm_push f hc]

theorem rollbackFold_records (tid : Int) :
    ∀ (l : List UndoRecord) (s : State), (l.foldl (rb tid) s).records = s.records := by
  intro l
  induction l with
  | nil => intro s; rfl
  | cons r l ih =>
    intro s
    rw [List.foldl_cons, ih]
    exact (Rollback_frame s tid r).1

theorem rollbackFold_map (tid : Int) :
    ∀ (hs : List Nat) (s : State),
      hs.foldl (fun st h => Rollback st tid (st.records.getD h default)) s
        = (hs.map (fun h => s.records.getD h default)).foldl (rb tid) s := by
  intro hs
  induction hs with
  | nil => intro s; rfl
  | cons h hs ih =>
    intro s
    rw [List.foldl_cons, List.map_cons, List.foldl_cons, ih]
    have hrec : (Rollback s tid (s.records.getD h default)).records = s.records :=
      (Rollback_frame _ _ _).1
    simp only [rb, hrec]

theorem Rollback_preserves_Valid (s : State) (tid : Int) (r : UndoRecord) (hv : Valid s) :
    Valid (Rollback s tid r) := by
  cases hh : s.heads r.table r.slot with
  | none => rw [Rollback_none s tid r hh]; exact hv
  | some vp =>
    by_cases hts : (s.records.getD vp default).timestamp = tid
    · rw [Rollback_owned s tid r vp hh hts]
      obtain ⟨hH, hN⟩ := hv
      constructor
      · intro t sl vq hq
        rw [show ({ s with
            tuples := applyDelta s.tuples r.table r.slot (s.records.getD vp default).delta,
            heads := updHead s.heads r.table r.slot (s.records.getD vp default).next } : State).heads
            = updHead s.heads r.table r.slot (s.records.getD vp default).next from rfl] at hq
        by_cases h2 : t = r.table ∧ sl = r.slot
        · obtain ⟨ha, hb⟩ := h2
          subst ha; subst hb
          rw [updHead_at] at hq
          exact hN _ (getD_mem s.records vp (hH _ _ _ hh)) vq hq
        · rw [updHead_other _ _ _ _ _ _ h2] at hq
          exact hH _ _ _ hq
      · intro x hx h2 hnx
        exact hN x hx h2 hnx
    · rw [Rollback_stale s tid r vp hh hts]
      exact hv

theorem rollbackFold_ext (tid : Int) :
    ∀ (l : List UndoRecord) (s sx : State),
      Valid s →
      (∀ i, i < s.records.length → sx.records.getD i default = s.records.getD i default) →
      sx.tuples = s.tuples → sx.heads = s.heads →
      (l.foldl (rb tid) sx).tuples = (l.foldl (rb tid) s).tuples ∧
      (l.foldl (rb tid) sx).heads = (l.foldl (rb tid) s).heads := by
  intro l
  induction l with
  | nil =>
    intro s sx hv hext ht hh
    exact ⟨ht, hh⟩
  | cons r l ih =>
    intro s sx hv hext ht hh
    rw [List.foldl_cons, List.foldl_cons]
    cases hA : s.heads r.table r.slot with
    | none =>
      have hAx : sx.heads r.table r.slot = none := by rw [hh, hA]
      rw [show rb tid sx r = sx from Rollback_none sx tid r hAx,
          show rb tid s r = s from Rollback_none s tid r hA]
      exact ih s sx hv hext ht hh
    | some vp =>
      have hvp : vp < s.records.length := hv.1 _ _ _ hA
      have hAx : sx.heads r.table r.slot = some vp := by rw [hh, hA]
      have hrecs : sx.records.getD vp default = s.records.getD vp default := hext vp hvp
      by_cases hts : (s.records.getD vp default).timestamp = tid
      · have e1 : rb tid s r = { s with
            tuples := applyDelta s.tuples r.table r.slot (s.records.getD vp default).delta,
            heads := updHead s.heads r.table r.slot (s.records.getD vp default).next } :=
          Rollback_owned s tid r vp hA hts
        have e2 : rb tid sx r = { sx with
            tuples := applyDelta sx.tuples r.table r.slot (sx.records.getD vp default).delta,
            heads := updHead sx.heads r.table r.slot (sx.records.getD vp default).next } :=
          Rollback_owned sx tid r vp hAx (by rw [hrecs]; exact hts)
        rw [e1, e2]
        refine ih _ _ (e1 ▸ Rollback_preserves_Valid s tid r hv) hext ?_ ?_
        · rw [ht, hrecs]
        · rw [hh, hrecs]
      · rw [show rb tid sx r = sx from
              Rollback_stale sx tid r vp hAx (by rw [hrecs]; exact hts),
            show rb tid s r = s from Rollback_stale s tid r vp hA hts]
        exact ih s sx hv hext ht hh

theorem TW_records (s : State) (txn t sl : Nat) (w : List (Nat × Int)) :
    (TransactionWrite s txn t sl w).records = s.records ++ [installedRecord s txn t sl w] := rfl

theorem TW_heads (s : State) (txn t sl : Nat) (w : List (Nat × Int)) :
    (TransactionWrite s txn t sl w).heads = updHead s.heads t sl (some s.records.length) := rfl

theorem TW_tuples (s : State) (txn t sl : Nat) (w : List (Nat × Int)) :
    (TransactionWrite s txn t sl w).tuples = applyDelta s.tuples t sl w := rfl

theorem TW_ctxs_length (s : State) (txn t sl : Nat) (w : List (Nat × Int)) :
    (TransactionWrite s txn t sl w).ctxs.length = s.ctxs.length := by
  show (s.ctxs.set txn _).length = s.ctxs.length
  exact List.length_set s.ctxs txn _

theorem TW_ctx (s : State) (txn t sl : Nat) (w : List (Nat × Int)) (h : txn < s.ctxs.length) :
    (TransactionWrite s txn t sl w).ctxs.getD txn default
      = { s.ctxs.getD txn default with
          undo_buffer := (s.ctxs.getD txn default).undo_buffer ++ [s.records.length] } := by
  show (s.ctxs.set txn _).getD txn default = _
  exact getD_set_self s.ctxs txn _ h

theorem length_snoc {α : Type} (l : List α) (a : α) : (l ++ [a]).length = l.length + 1 := by
  simp

theorem TW_Valid (s : State) (txn t sl : Nat) (w : List (Nat × Int)) (hv : Valid s) :
    Valid (TransactionWrite s txn t sl w) := by
  obtain ⟨hH, hN⟩ := hv
  constructor
  · intro a b vp hp
    rw [TW_records, length_snoc]
    rw [show (TransactionWrite s txn t sl w).heads
          = updHead s.heads t sl (some s.records.length) from rfl] at hp
    by_cases h2 : a = t ∧ b = sl
    · obtain ⟨ha, hb⟩ := h2
      subst ha; subst hb
      rw [updHead_at] at hp
      injection hp with hp
      omega
    · rw [updHead_other _ _ _ _ _ _ h2] at hp
      exact Nat.lt_succ_of_lt (hH _ _ _ hp)
  · intro x hx hnx hmem
    rw [TW_records, length_snoc]
    rw [TW_records] at hx
    rcases List.mem_append.mp hx with hold | hnew
    · exact Nat.lt_succ_of_lt (hN x hold hnx hmem)
    · have hxr : x = installedRecord s txn t sl w := List.mem_singleton.mp hnew
      subst hxr
      have : s.heads t sl = some hnx := hmem
      exact Nat.lt_succ_of_lt (hH _ _ _ this)

theorem TW_BufValid (s : State) (txn t sl : Nat) (w : List (Nat × Int))
    (h : txn < s.ctxs.length) (hb : BufValid s txn) :
    BufValid (TransactionWrite s txn t sl w) txn := by
  intro k hk
  rw [TW_ctx s txn t sl w h] at hk
  rw [TW_records, length_snoc]
  rcases List.mem_append.mp hk with hold | hnew
  · exact Nat.lt_succ_of_lt (hb k hold)
  · rw [List.mem_singleton.mp hnew]
    omega

theorem writeAll_snoc (s : State) (txn : Nat) (ws : List (Nat × Nat × List (Nat × Int)))
    (w : Nat × Nat × List (Nat × Int)) :
    writeAll s txn (ws ++ [w])
      = TransactionWrite (writeAll s txn ws) txn w.1 w.2.1 w.2.2 := by
  show List.foldl _ s (ws ++ [w]) = _
  rw [List.foldl_append, List.foldl_cons, List.foldl_nil]
  rfl

theorem writeAll_ctxs_length (txn : Nat) :
    ∀ (ws : List (Nat × Nat × List (Nat × Int))) (s : State),
      (writeAll s txn ws).ctxs.length = s.ctxs.length := by
  intro ws
  induction ws with
  | nil => intro s; rfl
  | cons w ws ih =>
    intro s
    rw [show writeAll s txn (w :: ws)
          = writeAll (TransactionWrite s txn w.1 w.2.1 w.2.2) txn ws from rfl, ih,
        TW_ctxs_length]

theorem writeAll_txn_id (txn : Nat) :
    ∀ (ws : List (Nat × Nat × List (Nat × Int))) (s : State), txn < s.ctxs.length →
      ((writeAll s txn ws).ctxs.getD txn default).txn_id
        = (s.ctxs.getD txn default).txn_id := by
  intro ws
  induction ws with
  | nil => intro s _; rfl
  | cons w ws ih =>
    intro s hs
    rw [show writeAll s txn (w :: ws)
          = writeAll (TransactionWrite s txn w.1 w.2.1 w.2.2) txn ws from rfl,
        ih _ (by rw [TW_ctxs_length]; exact hs), TW_ctx _ _ _ _ _ hs]

theorem writeAll_Valid (txn : Nat) :
    ∀ (ws : List (Nat × Nat × List (Nat × Int))) (s : State), Valid s →
      Valid (writeAll s txn ws) := by
  intro ws
  induction ws with
  | nil => intro s hv; exact hv
  | cons w ws ih =>
    intro s hv
    exact ih _ (TW_Valid s txn w.1 w.2.1 w.2.2 hv)

theorem writeAll_BufValid (txn : Nat) :
    ∀ (ws : List (Nat × Nat × List (Nat × Int))) (s : State), txn < s.ctxs.length →
      BufValid s txn → BufValid (writeAll s txn ws) txn := by
  intro ws
  induction ws with
  | nil => intro s _ hb; exact hb
  | cons w ws ih =>
    intro s hs hb
    exact ih _ (by rw [TW_ctxs_length]; exact hs) (TW_BufValid s txn w.1 w.2.1 w.2.2 hs hb)

theorem writeAll_abortFold_restore (txn : Nat) (s0 : State) (hv : Valid s0)
    (hlen : txn < s0.ctxs.length)
    (hbuf : (s0.ctxs.getD txn default).undo_buffer = []) :
    ∀ ws : List (Nat × Nat × List (Nat × Int)),
      (abortFold (writeAll s0 txn ws) txn (s0.ctxs.getD txn default).txn_id).tuples
          = s0.tuples ∧
      (abortFold (writeAll s0 txn ws) txn (s0.ctxs.getD txn default).txn_id).heads
          = s0.heads := by
  intro ws
  induction ws using List.reverseRecOn with
  | nil =>
    constructor
    · show (abortFold s0 txn _).tuples = s0.tuples
      rw [abortFold, hbuf]
      rfl
    · show (abortFold s0 txn _).heads = s0.heads
      rw [abortFold, hbuf]
      rfl
  | append_singleton ws w ih =>
    rw [writeAll_snoc]
    set tid := (s0.ctxs.getD txn default).txn_id with htiddef
    set sm := writeAll s0 txn ws with hsm
    set t := w.1 with htdef
    set sl := w.2.1 with hsldef
    set wr := w.2.2 with hwrdef
    have hsmlen : txn < sm.ctxs.length := by
      rw [hsm, writeAll_ctxs_length]
      exact hlen
    have htid : (sm.ctxs.getD txn default).txn_id = tid := by
      rw [hsm, htiddef]
      exact writeAll_txn_id txn ws s0 hlen
    have hvsm : Valid sm := by
      rw [hsm]
      exact writeAll_Valid txn ws s0 hv
    have hbvsm : BufValid sm txn := by
      rw [hsm]
      refine writeAll_BufValid txn ws s0 hlen ?_
      intro k hk
      rw [hbuf] at hk
      exact absurd hk (List.not_mem_nil k)
    set s1 := TransactionWrite sm txn t sl wr with hs1
    have e_buf : (s1.ctxs.getD txn default).undo_buffer
        = (sm.ctxs.getD txn default).undo_buffer ++ [sm.records.length] := by
      rw [hs1, TW_ctx sm txn t sl wr hsmlen]
    have e_rec : s1.records = sm.records ++ [installedRecord sm txn t sl wr] := by
      rw [hs1, TW_records]
    have e_map : (s1.ctxs.getD txn default).undo_buffer.map (fun h => s1.records.getD h default)
        = ((sm.ctxs.getD txn default).undo_buffer.map (fun h => sm.records.getD h default))
            ++ [installedRecord sm txn t sl wr] := by
      rw [e_buf, List.map_append]
      congr 1
      · exact List.map_congr_left
          (fun k hk => by rw [e_rec, getD_append_lt _ _ _ (hbvsm k hk)])
      · rw [List.map_cons, List.map_nil, e_rec, getD_append_self]
    have h_head : s1.heads t sl = some sm.records.length := by
      rw [hs1, TW_heads, updHead_at]
    have h_recw : s1.records.getD sm.records.length default
        = installedRecord sm txn t sl wr := by
      rw [e_rec]
      exact getD_append_self sm.records _
    have h_ts : (s1.records.getD sm.records.length default).timestamp = tid := by
      rw [h_recw]
      show (sm.ctxs.getD txn default).txn_id = tid
      rw [htid]
    have e_pop : rb tid s1 (installedRecord sm txn t sl wr)
        = { s1 with
            tuples := applyDelta s1.tuples t sl
              (s1.records.getD sm.records.length default).delta,
            heads := updHead s1.heads t sl
              (s1.records.getD sm.records.length default).next } :=
      Rollback_owned s1 tid (installedRecord sm txn t sl wr) sm.records.length h_head h_ts
    have e_tuples : (rb tid s1 (installedRecord sm txn t sl wr)).tuples = sm.tuples := by
      rw [e_pop]
      show applyDelta s1.tuples t sl (s1.records.getD sm.records.length default).delta
          = sm.tuples
      rw [h_recw, hs1, TW_tuples]
      exact applyDelta_restore sm.tuples t sl wr
    have e_heads : (rb tid s1 (installedRecord sm txn t sl wr)).heads = sm.heads := by
      rw [e_pop]
      show updHead s1.heads t sl (s1.records.getD sm.records.length default).next = sm.heads
      rw [h_recw, hs1, TW_heads]
      exact updHead_restore sm.heads t sl (some sm.records.length)
    have e_recspop : (rb tid s1 (installedRecord sm txn t sl wr)).records
        = sm.records ++ [installedRecord sm txn t sl wr] := by
      rw [show (rb tid s1 (installedRecord sm txn t sl wr)).records = s1.records from
            (Rollback_frame s1 tid _).1, e_rec]
    have hext : ∀ i, i < sm.records.length →
        (rb tid s1 (installedRecord sm txn t sl wr)).records.getD i default
          = sm.records.getD i default := by
      intro i hi
      rw [e_recspop]
      exact getD_append_lt _ _ _ hi
    have hExt := rollbackFold_ext tid
      (((sm.ctxs.getD txn default).undo_buffer.map
          (fun h => sm.records.getD h default)).reverse)
      sm (rb tid s1 (installedRecord sm txn t sl wr)) hvsm hext e_tuples e_heads
    have e_all : abortFold s1 txn tid
        = (((sm.ctxs.getD txn default).undo_buffer.map
              (fun h => sm.records.getD h default)).reverse).foldl (rb tid)
            (rb tid s1 (installedRecord sm txn t sl wr)) := by
      rw [abortFold, e_map, List.reverse_append]
      simp only [List.reverse_cons, List.reverse_nil, List.nil_append, List.singleton_append]
      rw [List.foldl_cons]
    constructor
    · rw [e_all, hExt.1]
      exact ih.1
    · rw [e_all, hExt.2]
      exact ih.2

theorem Abort_fold_eq (s : State) (txn : Nat) :
    (s.ctxs.getD txn default).undo_buffer.foldl
        (fun st h => Rollback st (s.ctxs.getD txn default).txn_id (st.records.getD h default)) s
      = abortFold s txn (s.ctxs.getD txn default).txn_id := by
  rw [rollbackFold_map, abortFold]
  exact foldl_comm_reverse (rb _) (fun b x y => Rollback_comm b _ x y) _ _

theorem Abort_tuples (s : State) (txn : Nat) :
    (Abort s txn).tuples = (abortFold s txn (s.ctxs.getD txn default).txn_id).tuples := by
  simp only [Abort]
  rw [Abort_fold_eq]
  split <;> rfl

theorem Abort_heads (s : State) (txn : Nat) :
    (Abort s txn).heads = (abortFold s txn (s.ctxs.getD txn default).txn_id).heads := by
  simp only [Abort]
  rw [Abort_fold_eq]
  split <;> rfl

theorem handleFold_frame (tid : Int) :
    ∀ (hs : List Nat) (s : State),
      (hs.foldl (fun st h => Rollback st tid (st.records.getD h default)) s).records = s.records ∧
      (hs.foldl (fun st h => Rollback st tid (st.records.getD h default)) s).ctxs = s.ctxs ∧
      (hs.foldl (fun st h => Rollback st tid (st.records.getD h default)) s).time = s.time ∧
      (hs.foldl (fun st h => Rollback st tid (st.records.getD h default)) s).curr_running_txns
          = s.curr_running_txns ∧
      (hs.foldl (fun st h => Rollback st tid (st.records.getD h default)) s).completed_txns
          = s.completed_txns ∧
      (hs.foldl (fun st h => Rollback st tid (st.records.getD h default)) s).gc_enabled
          = s.gc_enabled := by
  intro hs
  induction hs with
  | nil => intro s; exact ⟨rfl, rfl, rfl, rfl, rfl, rfl⟩
  | cons k hs ih =>
    intro s
    rw [List.foldl_cons]
    obtain ⟨f1, f2, f3, f4, f5, f6⟩ := Rollback_frame s tid (s.records.getD k default)
    obtain ⟨g1, g2, g3, g4, g5, g6⟩ := ih (Rollback s tid (s.records.getD k default))
    exact ⟨g1.trans f1, g2.trans f2, g3.trans f3, g4.trans f4, g5.trans f5, g6.trans f6⟩

theorem Abort_time (s : State) (txn : Nat) : (Abort s txn).time = s.time := by
  simp only [Abort]
  split <;> exact (handleFold_frame _ _ _).2.2.1

theorem Abort_records (s : State) (txn : Nat) : (Abort s txn).records = s.records := by
  simp only [Abort]
  split <;> exact (handleFold_frame _ _ _).1

theorem Abort_ctxs (s : State) (txn : Nat) : (Abort s txn).ctxs = s.ctxs := by
  simp only [Abort]
  split <;> exact (handleFold_frame _ _ _).2.1

theorem Abort_gc (s : State) (txn : Nat) : (Abort s txn).gc_enabled = s.gc_enabled := by
  simp only [Abort]
  split <;> exact (handleFold_frame _ _ _).2.2.2.2.2

theorem Abort_running (s : State) (txn : Nat) :
    (Abort s txn).curr_running_txns
      = s.curr_running_txns.filter
          (fun p => p.1 ≠ (s.ctxs.getD txn default).start_time) := by
  simp only [Abort]
  split <;>
    exact congrArg (List.filter _) (handleFold_frame _ _ _).2.2.2.1

theorem Abort_completed (s : State) (txn : Nat) :
    (Abort s txn).completed_txns
      = if s.gc_enabled then s.completed_txns ++ [txn] else s.completed_txns := by
  simp only [Abort]
  have hgc := (handleFold_frame ((s.ctxs.getD txn default).txn_id)
      ((s.ctxs.getD txn default).undo_buffer) s).2.2.2.2.2
  have hcp := (handleFold_frame ((s.ctxs.getD txn default).txn_id)
      ((s.ctxs.getD txn default).undo_buffer) s).2.2.2.2.1
  split
  · rename_i hcond
    rw [if_pos (by rw [← hgc]; exact hcond), hcp]
  · rename_i hcond
    rw [if_neg (by rw [← hgc]; exact hcond), hcp]

theorem stampAll_cons (rs : List UndoRecord) (a : Nat) (l : List Nat) (c : Int) :
    stampAll rs (a :: l) c
      = stampAll (rs.set a { rs.getD a default with timestamp := c }) l c := rfl

theorem stampAll_length (c : Int) :
    ∀ (l : List Nat) (rs : List UndoRecord), (stampAll rs l c).length = rs.length := by
  intro l
  induction l with
  | nil => intro rs; rfl
  | cons a l ih =>
    intro rs
    rw [stampAll_cons, ih, List.length_set]

theorem stampAll_not_mem (c : Int) :
    ∀ (l : List Nat) (rs : List UndoRecord) (h : Nat), h ∉ l →
      (stampAll rs l c).getD h default = rs.getD h default := by
  intro l
  induction l with
  | nil => intro rs h _; rfl
  | cons a l ih =>
    intro rs h hm
    have hne : a ≠ h := fun he => hm (he ▸ List.mem_cons_self a l)
    rw [stampAll_cons, ih _ _ (fun hc => hm (List.mem_cons_of_mem a hc)),
        getD_set_ne _ _ _ _ hne]

theorem stampAll_ts (c : Int) :
    ∀ (l : List Nat) (rs : List UndoRecord) (h : Nat), h ∈ l → h < rs.length →
      ((stampAll rs l c).getD h default).timestamp = c := by
  intro l
  induction l with
  | nil =>
    intro rs h hm _
    exact absurd hm (List.not_mem_nil h)
  | cons a l ih =>
    intro rs h hm hlt
    rw [stampAll_cons]
    by_cases hml : h ∈ l
    · exact ih _ _ hml (by rw [List.length_set]; exact hlt)
    · have hha : h = a := by
        rcases List.mem_cons.mp hm with he | hml2
        · exact he
        · exact absurd hml2 hml
      subst hha
      rw [stampAll_not_mem c l _ h hml, getD_set_self _ _ _ hlt]

theorem Commit_val (s : State) (txn : Nat) : (Commit s txn).1 = s.time := rfl

theorem Commit_time (s : State) (txn : Nat) : (Commit s txn).2.time = s.time + 1 := by
  simp only [Commit]
  split <;> rfl

theorem Commit_records (s : State) (txn : Nat) :
    (Commit s txn).2.records
      = stampAll s.records (s.ctxs.getD txn default).undo_buffer s.time := by
  simp only [Commit]
  split <;> rfl

theorem Commit_ctxs (s : State) (txn : Nat) :
    (Commit s txn).2.ctxs
      = s.ctxs.set txn { s.ctxs.getD txn default with txn_id := s.time } := by
  simp only [Commit]
  split <;> rfl

theorem Commit_running (s : State) (txn : Nat) :
    (Commit s txn).2.curr_running_txns
      = s.curr_running_txns.filter
          (fun p => p.1 ≠ (s.ctxs.getD txn default).start_time) := by
  simp only [Commit]
  split <;> rfl

theorem Commit_gc (s : State) (txn : Nat) : (Commit s txn).2.gc_enabled = s.gc_enabled := by
  simp only [Commit]
  split <;> rfl

theorem Commit_completed (s : State) (txn : Nat) :
    (Commit s txn).2.completed_txns
      = if s.gc_enabled then s.completed_txns ++ [txn] else s.completed_txns := by
  simp only [Commit]
  split <;> rfl

theorem Commit_tuples (s : State) (txn : Nat) : (Commit s txn).2.tuples = s.tuples := by
  simp only [Commit]
  split <;> rfl

theorem Commit_heads (s : State) (txn : Nat) : (Commit s txn).2.heads = s.heads := by
  simp only [Commit]
  split <;> rfl

theorem minEntry_cons (p : Int × Nat) (m : List (Int × Nat)) :
    minEntry (p :: m) = m.foldl minStep (some p) := rfl

theorem minEntry_go :
    ∀ (m : List (Int × Nat)) (q : Int × Nat),
      ∃ q2, m.foldl minStep (some q) = some q2 ∧ (q2 = q ∨ q2 ∈ m) ∧ q2.1 ≤ q.1 ∧
        ∀ p ∈ m, q2.1 ≤ p.1 := by
  intro m
  induction m with
  | nil =>
    intro q
    exact ⟨q, rfl, Or.inl rfl, le_refl _, fun p hp => absurd hp (List.not_mem_nil p)⟩
  | cons p m ih =>
    intro q
    rw [List.foldl_cons]
    by_cases hpq : p.1 < q.1
    · rw [show minStep (some q) p = some p from by simp [minStep, hpq]]
      obtain ⟨q2, h1, h2, h3, h4⟩ := ih p
      refine ⟨q2, h1, ?_, le_trans h3 (le_of_lt hpq), ?_⟩
      · rcases h2 with he | hm
        · exact Or.inr (he ▸ List.mem_cons_self p m)
        · exact Or.inr (List.mem_cons_of_mem p hm)
      · intro x hx
        rcases List.mem_cons.mp hx with he | hm
        · rw [he]
          exact h3
        · exact h4 x hm
    · rw [show minStep (some q) p = some q from by simp [minStep, hpq]]
      obtain ⟨q2, h1, h2, h3, h4⟩ := ih q
      refine ⟨q2, h1, ?_, h3, ?_⟩
      · rcases h2 with he | hm
        · exact Or.inl he
        · exact Or.inr (List.mem_cons_of_mem p hm)
      · intro x hx
        rcases List.mem_cons.mp hx with he | hm
        · rw [he]
          exact le_trans h3 (le_of_not_lt hpq)
        · exact h4 x hm

theorem Begin_fst (s : State) : (BeginTransaction s).1 = s.ctxs.length := rfl

theorem Begin_time (s : State) : (BeginTransaction s).2.time = s.time + 1 := rfl

theorem Begin_ctxs (s : State) :
    (BeginTransaction s).2.ctxs
      = s.ctxs ++ [{ start_time := s.time, txn_id := s.time + INT64_MIN,
                     undo_buffer := [] }] := rfl

theorem Begin_running (s : State) :
    (BeginTransaction s).2.curr_running_txns
      = emplace s.curr_running_txns s.time s.ctxs.length := rfl

theorem Begin_new_ctx (s : State) :
    (BeginTransaction s).2.ctxs.getD (BeginTransaction s).1 default
      = { start_time := s.time, txn_id := s.time + INT64_MIN, undo_buffer := [] } := by
  rw [Begin_fst, Begin_ctxs, getD_append_self]

theorem stepOp_time_le (s : State) (o : Op) : s.time ≤ (stepOp s o).time := by
  cases o with
  | beginTxn =>
    show s.time ≤ s.time + 1
    omega
  | commitTxn h =>
    show s.time ≤ (Commit s h).2.time
    rw [Commit_time]
    omega
  | abortTxn h =>
    show s.time ≤ (Abort s h).time
    rw [Abort_time]
  | takeCompleted => exact le_refl _
  | oldestQuery => exact le_refl _

theorem mem_draws (s : State) (o : Op) (x : Int) (hx : x ∈ draws s o) : x = s.time := by
  cases o <;> simp [draws] at hx <;> exact hx

theorem drawn_lt_next (s : State) (o : Op) (x : Int) (hx : x ∈ draws s o) :
    x < (stepOp s o).time := by
  cases o with
  | beginTxn =>
    rw [mem_draws s _ x hx]
    show s.time < s.time + 1
    omega
  | commitTxn h =>
    rw [mem_draws s _ x hx]
    show s.time < (Commit s h).2.time
    rw [Commit_time]
    omega
  | abortTxn h => simp [draws] at hx
  | takeCompleted => simp [draws] at hx
  | oldestQuery => simp [draws] at hx

theorem drawnList_ge :
    ∀ (ops : List Op) (s : State) (x : Int), x ∈ drawnList s ops → s.time ≤ x := by
  intro ops
  induction ops with
  | nil =>
    intro s x hx
    simp [drawnList] at hx
  | cons o ops ih =>
    intro s x hx
    rw [drawnList] at hx
    rcases List.mem_append.mp hx with hd | hm
    · rw [mem_draws s o x hd]
    · exact le_trans (stepOp_time_le s o) (ih _ _ hm)

theorem drawnList_pairwise :
    ∀ (ops : List Op) (s : State), List.Pairwise (· < ·) (drawnList s ops) := by
  intro ops
  induction ops with
  | nil => intro s; exact List.Pairwise.nil
  | cons o ops ih =>
    intro s
    rw [drawnList]
    refine List.pairwise_append.mpr ⟨?_, ih _, ?_⟩
    · cases o <;> simp [draws]
    · intro a ha b hb
      have h1 : a < (stepOp s o).time := drawn_lt_next s o a ha
      have h2 : (stepOp s o).time ≤ b := drawnList_ge ops _ b hb
      omega

theorem run_cons (s : State) (o : Op) (ops : List Op) :
    run s (o :: ops) = run (stepOp s o) ops := rfl

theorem stepOp_gc (s : State) (o : Op) : (stepOp s o).gc_enabled = s.gc_enabled := by
  cases o with
  | beginTxn => rfl
  | commitTxn h => exact Commit_gc s h
  | abortTxn h => exact Abort_gc s h
  | takeCompleted => rfl
  | oldestQuery => rfl

theorem run_completed :
    ∀ (ops : List Op) (s : State), (∀ o ∈ ops, o ≠ Op.takeCompleted) →
      (run s ops).completed_txns = s.completed_txns ++ gcCompletions s.gc_enabled ops := by
  intro ops
  induction ops with
  | nil =>
    intro s _
    show s.completed_txns = s.completed_txns ++ gcCompletions s.gc_enabled []
    rw [gcCompletions]
    cases s.gc_enabled <;> simp
  | cons o ops ih =>
    intro s hops
    rw [run_cons, ih (stepOp s o) (fun o2 h2 => hops o2 (List.mem_cons_of_mem o h2)),
        stepOp_gc]
    have ho : o ≠ Op.takeCompleted := hops o (List.mem_cons_self o ops)
    cases o with
    | beginTxn =>
      show s.completed_txns ++ gcCompletions s.gc_enabled ops
          = s.completed_txns ++ gcCompletions s.gc_enabled (Op.beginTxn :: ops)
      rw [gcCompletions, gcCompletions]
      cases s.gc_enabled <;> simp [completedOf]
    | commitTxn h =>
      rw [show (stepOp s (Op.commitTxn h)).completed_txns = (Commit s h).2.completed_txns
            from rfl,
          Commit_completed, gcCompletions, gcCompletions]
      cases s.gc_enabled <;> simp [completedOf, List.filterMap_cons]
    | abortTxn h =>
      rw [show (stepOp s (Op.abortTxn h)).completed_txns = (Abort s h).completed_txns
            from rfl,
          Abort_completed, gcCompletions, gcCompletions]
      cases s.gc_enabled <;> simp [completedOf, List.filterMap_cons]
    | takeCompleted => exact absurd rfl ho
    | oldestQuery =>
      show s.completed_txns ++ gcCompletions s.gc_enabled ops
          = s.completed_txns ++ gcCompletions s.gc_enabled (Op.oldestQuery :: ops)
      rw [gcCompletions, gcCompletions]
      cases s.gc_enabled <;> simp [completedOf]

theorem Oldest_empty (s : State) (hm : s.curr_running_txns = []) :
    OldestTransactionStartTime s = s.time := by
  simp only [OldestTransactionStartTime, hm]
  rfl

theorem Oldest_entry (s : State) (q : Int × Nat)
    (hq : minEntry s.curr_running_txns = some q) :
    OldestTransactionStartTime s = (s.ctxs.getD q.2 default).start_time := by
  simp only [OldestTransactionStartTime, hq]

/-- C3: if the version-chain head for the slot of the record is null, or
its timestamp word differs from the transient id of the aborting
transaction, the Rollback step returns leaving the tuple contents and
the version-chain head (indeed the whole state) unchanged. -/
theorem rollback_foreign_head_noop (s : State) (tid : Int) (r : UndoRecord)
    (h : s.heads r.table r.slot = none ∨
      ∃ vp, s.heads r.table r.slot = some vp ∧
        (s.records.getD vp default).timestamp ≠ tid) :
    Rollback s tid r = s := by
  rcases h with hn | ⟨vp, hv, hts⟩
  · exact Rollback_none s tid r hn
  · exact Rollback_stale s tid r vp hv hts

/-- Witness for C3 at a concrete state: the id -7 does not own the chain
head installed by id -5, so its rollback step is the identity. -/
theorem rollback_foreign_head_noop_witness :
    Rollback chainState (-7) chainRecFirst = chainState :=
  rollback_foreign_head_noop chainState (-7) chainRecFirst
    (Or.inr ⟨1, by decide, by decide⟩)

/-- C4 counterexample: during Abort of the two-write transaction of
chainState, the first record processed is chainRecFirst while the chain
head is the newer chainRecSecond (both have the aborting id -5); the
claim predicts the delta of chainRecFirst (column 0 value 10) is copied
back and the head becomes its next (null), but Rollback instead applies
the head record: the column reads 99 and the head becomes handle 0. -/
theorem rollback_record_delta_cex :
    ¬ ((Rollback chainState (-5) chainRecFirst).tuples 0 0 0 = 10 ∧
       (Rollback chainState (-5) chainRecFirst).heads 0 0 = none) := by
  decide

/-- C4 (amended): when the version-chain head of the slot of R is
non-null and its timestamp word equals the transient id of the aborting
transaction, Rollback copies the delta of the head record column by
column into the tuple slot and stores the next pointer of the head
record as the new head, touching no other slot; in particular when R
itself is the head record the copied delta and installed next are those
of R. -/
theorem rollback_applies_head_record (s : State) (tid : Int) (r : UndoRecord) (vp : Nat)
    (hh : s.heads r.table r.slot = some vp)
    (hts : (s.records.getD vp default).timestamp = tid) :
    (Rollback s tid r).heads r.table r.slot = (s.records.getD vp default).next ∧
    (∀ c, (Rollback s tid r).tuples r.table r.slot c
        = applyPairs (s.tuples r.table r.slot) (s.records.getD vp default).delta c) ∧
    (∀ a b, ¬(a = r.table ∧ b = r.slot) →
      (Rollback s tid r).heads a b = s.heads a b ∧
      ∀ c, (Rollback s tid r).tuples a b c = s.tuples a b c) ∧
    (s.records.getD vp default = r →
      (Rollback s tid r).heads r.table r.slot = r.next ∧
      ∀ c, (Rollback s tid r).tuples r.table r.slot c
          = applyPairs (s.tuples r.table r.slot) r.delta c) := by
  have e := Rollback_owned s tid r vp hh hts
  refine ⟨?_, ?_, ?_, ?_⟩
  · rw [e]
    show updHead s.heads r.table r.slot (s.records.getD vp default).next r.table r.slot = _
    exact updHead_at _ _ _ _
  · intro c
    rw [e]
    show applyDelta s.tuples r.table r.slot (s.records.getD vp default).delta r.table r.slot c
        = _
    exact applyDelta_at _ _ _ _ _
  · intro a b hab
    constructor
    · rw [e]
      show updHead s.heads r.table r.slot _ a b = s.heads a b
      exact updHead_other _ _ _ _ _ _ hab
    · intro c
      rw [e]
      show applyDelta s.tuples r.table r.slot _ a b c = s.tuples a b c
      exact applyDelta_other _ _ _ _ _ _ _ hab
  · intro hr
    constructor
    · rw [e]
      show updHead s.heads r.table r.slot (s.records.getD vp default).next r.table r.slot
          = r.next
      rw [updHead_at, hr]
    · intro c
      rw [e]
      show applyDelta s.tuples r.table r.slot (s.records.getD vp default).delta r.table r.slot c
          = applyPairs (s.tuples r.table r.slot) r.delta c
      rw [hr]
      exact applyDelta_at _ _ _ _ _

/-- Witness for the amended C4 at a concrete state: popping the head
record chainRecSecond writes its before-image 99 back into column 0 and
advances the head to the older record at handle 0. -/
theorem rollback_applies_head_record_witness :
    (Rollback chainState (-5) chainRecSecond).heads 0 0 = some 0 ∧
    (Rollback chainState (-5) chainRecSecond).tuples 0 0 0 = 99 := by
  have h := rollback_applies_head_record chainState (-5) chainRecSecond 1
    (by decide) (by decide)
  exact ⟨h.1, h.2.1 0⟩

/-- C10: the effect of Rollback depends only on the table and slot of
the record passed in, not on which undo record of the transaction it is:
any two records of the same slot give the same resulting state, and
whenever the head is owned by the aborting id, the head record (the
newest of the transaction for that slot) is the one popped: its delta is
applied and the head advances to its next. -/
theorem rollback_head_determined :
    ∀ (s : State) (tid : Int) (r r2 : UndoRecord), r.table = r2.table → r.slot = r2.slot →
      (Rollback s tid r = Rollback s tid r2) ∧
      (∀ vp, s.heads r.table r.slot = some vp →
        (s.records.getD vp default).timestamp = tid →
        (Rollback s tid r).heads r.table r.slot = (s.records.getD vp default).next ∧
        ∀ c, (Rollback s tid r).tuples r.table r.slot c
            = applyPairs (s.tuples r.table r.slot) (s.records.getD vp default).delta c) := by
  intro s tid r r2 h1 h2
  constructor
  · exact Rollback_congr s tid r r2 h1 h2
  · intro vp hh hts
    have e := Rollback_owned s tid r vp hh hts
    constructor
    · rw [e]
      show updHead s.heads r.table r.slot (s.records.getD vp default).next r.table r.slot = _
      exact updHead_at _ _ _ _
    · intro c
      rw [e]
      show applyDelta s.tuples r.table r.slot (s.records.getD vp default).delta r.table r.slot c
          = _
      exact applyDelta_at _ _ _ _ _

/-- Witness for C10 at a concrete state: passing the older record or the
newer record of the same slot to Rollback yields the same state. -/
theorem rollback_head_determined_witness :
    Rollback chainState (-5) chainRecFirst = Rollback chainState (-5) chainRecSecond :=
  (rollback_head_determined chainState (-5) chainRecFirst chainRecSecond rfl rfl).1

/-- C6: along any operation sequence the timestamps drawn from the
source (by BeginTransaction and Commit) are pairwise strictly
increasing in drawing order; in particular after Begin, Commit of that
transaction and another Begin, the start time of the second transaction
is strictly greater than the commit time of the first. -/
theorem timestamps_strictly_monotone :
    (∀ (s : State) (ops : List Op), List.Pairwise (· < ·) (drawnList s ops)) ∧
    (∀ s : State,
      (Commit (BeginTransaction s).2 (BeginTransaction s).1).1
        < ((BeginTransaction (Commit (BeginTransaction s).2 (BeginTransaction s).1).2).2.ctxs.getD
            (BeginTransaction (Commit (BeginTransaction s).2 (BeginTransaction s).1).2).1
            default).start_time) := by
  constructor
  · exact fun s ops => drawnList_pairwise ops s
  · intro s
    rw [Begin_new_ctx]
    show (Commit (BeginTransaction s).2 (BeginTransaction s).1).1
        < (Commit (BeginTransaction s).2 (BeginTransaction s).1).2.time
    rw [Commit_val, Commit_time]
    omega

/-- C7: taking the completed queue empties it, so an immediate second
call returns the empty queue, and after any take-free operation
sequence the next call returns exactly the contexts completed since, in
completion order, with completions queued only when GC is enabled. -/
theorem completed_queue_handoff (s : State) (ops : List Op)
    (hops : ∀ o ∈ ops, o ≠ Op.takeCompleted) :
    (CompletedTransactionsForGC s).2.completed_txns = [] ∧
    (CompletedTransactionsForGC ((CompletedTransactionsForGC s).2)).1 = [] ∧
    (CompletedTransactionsForGC (run (CompletedTransactionsForGC s).2 ops)).1
      = gcCompletions s.gc_enabled ops := by
  refine ⟨rfl, rfl, ?_⟩
  show (run (CompletedTransactionsForGC s).2 ops).completed_txns = _
  rw [run_completed ops _ hops]
  show [] ++ gcCompletions s.gc_enabled ops = gcCompletions s.gc_enabled ops
  exact List.nil_append _

/-- Witness for C7 at a concrete state: after draining the queue and
committing the live transaction, the next take returns exactly that
context. -/
theorem completed_queue_handoff_witness :
    (CompletedTransactionsForGC
        (run (CompletedTransactionsForGC fixtureState).2 [Op.commitTxn 0])).1 = [0] := by
  have h := completed_queue_handoff fixtureState [Op.commitTxn 0] (by decide)
  exact h.2.2.trans (by decide)

/-- C8 counterexample: after the literal scenario (two begins, two
commits from a fresh manager) OldestTransactionStartTime returns 5 and
not 4: the two begins and two commits consumed timestamps 1 through 4,
so the next issuable timestamp is 5. -/
theorem scenario_horizon_cex : ¬ OldestTransactionStartTime scn4 = 4 := by
  decide

/-- C8 (amended): from a fresh manager the two begins yield start times
1 and 2; OldestTransactionStartTime then returns 1; after committing the
first transaction it returns 2; and after committing the second it
returns 5, the next issuable timestamp after the two begins and two
commits consumed timestamps 1 through 4. -/
theorem scenario_horizon :
    (scn1.ctxs.getD 0 default).start_time = 1 ∧
    (scn2.ctxs.getD 1 default).start_time = 2 ∧
    OldestTransactionStartTime scn2 = 1 ∧
    OldestTransactionStartTime scn3 = 2 ∧
    OldestTransactionStartTime scn4 = 5 := by
  decide

/-- C9 counterexample: Begin followed immediately by Abort consumes one
timestamp, not two: from the fresh manager (counter at 1) the counter
ends at 2 rather than 3. -/
theorem begin_abort_two_consumed_cex :
    ¬ (Abort (BeginTransaction scn0).2 (BeginTransaction scn0).1).time
        = scn0.time + 2 := by
  decide

/-- C9 (amended): Begin immediately followed by Abort of the new
transaction, whose undo buffer is empty, consumes exactly one timestamp,
changes no tuple, version-chain head or undo record, restores the
running table, and pushes only the aborted context onto the completed
queue, and that only when GC is enabled. -/
theorem begin_abort_roundtrip (s : State)
    (hk : ∀ p ∈ s.curr_running_txns, p.1 ≠ s.time) :
    (Abort (BeginTransaction s).2 (BeginTransaction s).1).time = s.time + 1 ∧
    (Abort (BeginTransaction s).2 (BeginTransaction s).1).tuples = s.tuples ∧
    (Abort (BeginTransaction s).2 (BeginTransaction s).1).heads = s.heads ∧
    (Abort (BeginTransaction s).2 (BeginTransaction s).1).records = s.records ∧
    (Abort (BeginTransaction s).2 (BeginTransaction s).1).curr_running_txns
        = s.curr_running_txns ∧
    (Abort (BeginTransaction s).2 (BeginTransaction s).1).completed_txns
        = (if s.gc_enabled then s.completed_txns ++ [(BeginTransaction s).1]
           else s.completed_txns) := by
  have hbuf : ((BeginTransaction s).2.ctxs.getD (BeginTransaction s).1 default).undo_buffer
      = [] := by
    rw [Begin_new_ctx]
  refine ⟨?_, ?_, ?_, ?_, ?_, ?_⟩
  · rw [Abort_time, Begin_time]
  · rw [Abort_tuples, abortFold, hbuf, List.map_nil, List.reverse_nil, List.foldl_nil]
    rfl
  · rw [Abort_heads, abortFold, hbuf, List.map_nil, List.reverse_nil, List.foldl_nil]
    rfl
  · rw [Abort_records]
    rfl
  · rw [Abort_running, Begin_new_ctx]
    show (emplace s.curr_running_txns s.time s.ctxs.length).filter
        (fun p => p.1 ≠ s.time) = s.curr_running_txns
    have hany : s.curr_running_txns.any (fun p => p.1 = s.time) = false := by
      rw [List.any_eq_false]
      intro p hp
      simp [hk p hp]
    rw [emplace, if_neg (by rw [hany]; exact Bool.false_ne_true), List.filter_append]
    have h1 : s.curr_running_txns.filter (fun p => p.1 ≠ s.time) = s.curr_running_txns := by
      rw [List.filter_eq_self]
      intro p hp
      simp [hk p hp]
    rw [h1]
    simp
  · rw [Abort_completed]
    rfl

/-- Witness for the amended C9 at a concrete state: from fixtureState
the counter ends at 3, the running table is restored and the aborted
context (handle 1) is the only new completed entry. -/
theorem begin_abort_roundtrip_witness :
    (Abort (BeginTransaction fixtureState).2 (BeginTransaction fixtureState).1).time = 3 ∧
    (Abort (BeginTransaction fixtureState).2
        (BeginTransaction fixtureState).1).curr_running_txns = [(1, 0)] ∧
    (Abort (BeginTransaction fixtureState).2
        (BeginTransaction fixtureState).1).completed_txns = [1] := by
  have h := begin_abort_roundtrip fixtureState (by decide)
  exact ⟨h.1.trans (by decide), h.2.2.2.2.1.trans (by decide),
    h.2.2.2.2.2.trans (by decide)⟩

/-- C1: Commit of a live registered transaction returns the next
timestamp of the source as the commit time C, non-negative whenever the
source is non-negative; after Commit every undo record of the
transaction carries timestamp word C, the txn id of the context is C,
the start time is no longer a key of the running table, and with GC
enabled the context was pushed onto the completed queue. -/
theorem commit_contract (s : State) (txn : Nat)
    (hlen : txn < s.ctxs.length) (h0 : 0 ≤ s.time)
    (hbv : ∀ h ∈ (s.ctxs.getD txn default).undo_buffer, h < s.records.length)
    (_hreg : ((s.ctxs.getD txn default).start_time, txn) ∈ s.curr_running_txns) :
    (Commit s txn).1 = s.time ∧ 0 ≤ (Commit s txn).1 ∧
    (Commit s txn).2.time = s.time + 1 ∧
    (∀ h ∈ (s.ctxs.getD txn default).undo_buffer,
      ((Commit s txn).2.records.getD h default).timestamp = (Commit s txn).1) ∧
    ((Commit s txn).2.ctxs.getD txn default).txn_id = (Commit s txn).1 ∧
    (∀ v, ((s.ctxs.getD txn default).start_time, v)
        ∉ (Commit s txn).2.curr_running_txns) ∧
    (s.gc_enabled = true →
      (Commit s txn).2.completed_txns = s.completed_txns ++ [txn]) ∧
    (s.gc_enabled = false → (Commit s txn).2.completed_txns = s.completed_txns) := by
  refine ⟨rfl, h0, Commit_time s txn, ?_, ?_, ?_, ?_, ?_⟩
  · intro h hm
    rw [Commit_records, Commit_val]
    exact stampAll_ts s.time _ s.records h hm (hbv h hm)
  · rw [Commit_ctxs, getD_set_self _ _ _ hlen, Commit_val]
  · intro v hv
    rw [Commit_running] at hv
    have h2 := (List.mem_filter.mp hv).2
    simp at h2
  · intro hgc
    rw [Commit_completed, if_pos hgc]
  · intro hgc
    rw [Commit_completed, if_neg (by simp [hgc])]

/-- Witness for C1 at a concrete state: committing the fixture
transaction yields commit time 2, stores it into the context and queues
handle 0 for GC. -/
theorem commit_contract_witness :
    (Commit fixtureState 0).1 = 2 ∧
    ((Commit fixtureState 0).2.ctxs.getD 0 default).txn_id = 2 ∧
    (Commit fixtureState 0).2.completed_txns = [0] := by
  have h := commit_contract fixtureState 0 (by decide) (by decide) (by decide) (by decide)
  exact ⟨h.1.trans (by decide), h.2.2.2.2.1.trans (by decide),
    (h.2.2.2.2.2.2.1 (by decide)).trans (by decide)⟩

/-- C5: OldestTransactionStartTime is a lower bound of the start times
of all running transactions and equals the start time of one of them
whenever any are running, and it returns the current value of the
timestamp source (the next issuable timestamp) when the running table is
empty. -/
theorem oldest_transaction_start_time_spec (s : State)
    (hk : ∀ p ∈ s.curr_running_txns, (s.ctxs.getD p.2 default).start_time = p.1) :
    (s.curr_running_txns = [] → OldestTransactionStartTime s = s.time) ∧
    (∀ p ∈ s.curr_running_txns,
        OldestTransactionStartTime s ≤ (s.ctxs.getD p.2 default).start_time) ∧
    (s.curr_running_txns ≠ [] →
      ∃ p ∈ s.curr_running_txns,
        OldestTransactionStartTime s = (s.ctxs.getD p.2 default).start_time) := by
  cases hm : s.curr_running_txns with
  | nil =>
    refine ⟨fun _ => Oldest_empty s hm, ?_, ?_⟩
    · intro x hx
      exact absurd hx (List.not_mem_nil x)
    · intro hne
      exact absurd rfl hne
  | cons p m =>
    obtain ⟨q2, h1, h2, h3, h4⟩ := minEntry_go m p
    have hq : minEntry s.curr_running_txns = some q2 := by
      rw [hm, minEntry_cons, h1]
    have hmem : q2 ∈ s.curr_running_txns := by
      rw [hm]
      rcases h2 with he | hq2
      · exact he ▸ List.mem_cons_self p m
      · exact List.mem_cons_of_mem p hq2
    have holdest : OldestTransactionStartTime s = q2.1 := by
      rw [Oldest_entry s q2 hq, hk q2 hmem]
    refine ⟨?_, ?_, ?_⟩
    · intro he
      exact absurd he (List.cons_ne_nil p m)
    · intro x hx
      have hx2 : x ∈ s.curr_running_txns := by
        rw [hm]
        exact hx
      rw [holdest, hk x hx2]
      rcases List.mem_cons.mp hx with he | hxm
      · rw [he]
        exact h3
      · exact h4 x hxm
    · intro _
      refine ⟨q2, hm ▸ hmem, ?_⟩
      rw [holdest, hk q2 hmem]

/-- Witness for C5 at a concrete state: with transactions of start times
1 and 2 running, the horizon is a lower bound of both start times. -/
theorem oldest_transaction_start_time_spec_witness :
    OldestTransactionStartTime scn2 ≤ (scn2.ctxs.getD 0 default).start_time ∧
    OldestTransactionStartTime scn2 ≤ (scn2.ctxs.getD 1 default).start_time := by
  have h := oldest_transaction_start_time_spec scn2 (by decide)
  exact ⟨h.2.1 (1, 0) (by decide), h.2.1 (2, 1) (by decide)⟩

/-- C2: aborting a transaction that performed an arbitrary sequence of
writes, including several writes to the same slot, restores every tuple
image and every version-chain head to their values from before the
first write of the transaction, the before-images taking effect in
reverse order of installation. -/
theorem abort_restores_before_images (s0 : State) (txn : Nat)
    (ws : List (Nat × Nat × List (Nat × Int)))
    (hv : Valid s0) (hlen : txn < s0.ctxs.length)
    (hbuf : (s0.ctxs.getD txn default).undo_buffer = []) :
    (Abort (writeAll s0 txn ws) txn).tuples = s0.tuples ∧
    (Abort (writeAll s0 txn ws) txn).heads = s0.heads := by
  have htid : ((writeAll s0 txn ws).ctxs.getD txn default).txn_id
      = (s0.ctxs.getD txn default).txn_id := writeAll_txn_id txn ws s0 hlen
  have hr := writeAll_abortFold_restore txn s0 hv hlen hbuf ws
  constructor
  · rw [Abort_tuples, htid]
    exact hr.1
  · rw [Abort_heads, htid]
    exact hr.2

/-- Witness for C2 at a concrete state: the fixture transaction writes
column 0 of table 0 slot 0 twice (99 then 77); after Abort the column
again reads 10 and the version chain is empty. -/
theorem abort_restores_before_images_witness :
    (Abort (writeAll fixtureState 0 fixtureWrites) 0).tuples 0 0 0 = 10 ∧
    (Abort (writeAll fixtureState 0 fixtureWrites) 0).heads 0 0 = none := by
  have h := abort_restores_before_images fixtureState 0 fixtureWrites
    ⟨fun t sl vp hp => Option.noConfusion hp,
     fun x hx => absurd hx (List.not_mem_nil x)⟩
    (by decide) rfl
  exact ⟨by rw [h.1]; rfl, by rw [h.2]; rfl⟩

end Terrier
